import Mathlib

/-!
Shallow embedding of the PowerTrader backtest data engine
(`src/pt_backtest.py`, `src/backtest_feed.py`).

Numeric values (Python floats) are modelled as rationals; all arithmetic in
the claims under study is exact at the inputs considered.
-/

namespace PowerTrader

/-- A raw serialized record as handed to the parsers.  `ast.literal_eval`
either fails structurally (`invalid`) or produces a sequence of fields; each
field is `some q` when `float(field)` succeeds with value `q`, and `none`
when the field is non-numeric. -/
inductive RawRecord where
  | invalid : RawRecord
  | record : List (Option ℚ) → RawRecord
deriving DecidableEq, Repr

/-- `float(vals[i])`: fails (returns `none`) when the index is out of range
or the field is non-numeric. -/
def fieldAt (vals : List (Option ℚ)) (i : ℕ) : Option ℚ :=
  match vals.get? i with
  | some (some q) => some q
  | _ => none

/-- The body of one loop iteration of `BacktestPriceReplay._parse_rows`:
`ts = float(vals[0]); close_price = float(vals[2])`, any failure dropping
the record. -/
def decodeReplay (r : RawRecord) : Option (ℚ × ℚ) :=
  match r with
  | .invalid => none
  | .record vals =>
    match fieldAt vals 0, fieldAt vals 2 with
    | some ts, some close => some (ts, close)
    | _, _ => none

/-- The loop of `BacktestPriceReplay._parse_rows` before the sort: records
are decoded independently, failures are skipped. -/
def parseRowsLoop : List RawRecord → List (ℚ × ℚ)
  | [] => []
  | r :: rest =>
    match decodeReplay r with
    | some p => p :: parseRowsLoop rest
    | none => parseRowsLoop rest

/-- Sort key of `parsed.sort(key=lambda x: x[0])`: timestamps ascending. -/
def tsLe (a b : ℚ × ℚ) : Prop := a.1 ≤ b.1

instance : DecidableRel tsLe := fun a b => inferInstanceAs (Decidable (a.1 ≤ b.1))

instance : IsTotal (ℚ × ℚ) tsLe := ⟨fun a b => le_total a.1 b.1⟩

instance : IsTrans (ℚ × ℚ) tsLe := ⟨fun _ _ _ h h' => le_trans h h'⟩

/-- `BacktestPriceReplay._parse_rows`: decode each row, drop failures, then
stable-sort by timestamp (Python `list.sort` is stable). -/
def _parse_rows (rows : List RawRecord) : List (ℚ × ℚ) :=
  (parseRowsLoop rows).insertionSort tsLe

/-- A parsed 5-field candle `(timestamp, open, close, high, low)` as built by
`_parse_history_rows`. -/
structure Candle where
  ts : ℚ
  op : ℚ
  close : ℚ
  high : ℚ
  low : ℚ
deriving DecidableEq, Repr

/-- The body of one loop iteration of `_parse_history_rows`: the first five
fields must all convert with `float`, otherwise the record is dropped. -/
def decodeHistory (r : RawRecord) : Option Candle :=
  match r with
  | .invalid => none
  | .record vals =>
    match fieldAt vals 0, fieldAt vals 1, fieldAt vals 2,
          fieldAt vals 3, fieldAt vals 4 with
    | some ts, some o, some c, some h, some l => some ⟨ts, o, c, h, l⟩
    | _, _, _, _, _ => none

/-- `pt_backtest._parse_history_rows`: decode each row independently, drop
failures, keep input order (this parser does not sort). -/
def _parse_history_rows : List RawRecord → List Candle
  | [] => []
  | r :: rest =>
    match decodeHistory r with
    | some c => c :: _parse_history_rows rest
    | none => _parse_history_rows rest

/-- The result record of `_calc_metrics`. -/
structure Metrics where
  samples : ℕ
  win_rate : ℚ
  hit_rate : ℚ
  avg_threshold : ℚ
deriving DecidableEq, Repr

/-- Accumulator of the `_calc_metrics` loop: wins, hits, thresholds list. -/
def calcMetricsLoop : List Candle → ℕ × ℕ × List ℚ
  | [] => (0, 0, [])
  | c :: rest =>
    let (wins, hits, thresholds) := calcMetricsLoop rest
    let wins := if c.close > c.op then wins + 1 else wins
    let intradayMove := max |c.high - c.op| |c.op - c.low|
    let hits := if intradayMove > 0 then hits + 1 else hits
    (wins, hits, |c.close - c.op| :: thresholds)

/-- `pt_backtest._calc_metrics`. -/
def _calc_metrics (rows : List Candle) : Metrics :=
  if rows.isEmpty then ⟨0, 0, 0, 0⟩
  else
    let (wins, hits, thresholds) := calcMetricsLoop rows
    let total : ℚ := rows.length
    ⟨rows.length, wins / total, hits / total,
      if thresholds.isEmpty then 0 else thresholds.sum / total⟩

/-! ## Dataset catalog (`discover_datasets`) -/

/-- One directory entry as seen by `os.listdir` plus the `os.path.isdir`
test on it. -/
structure DirEntry where
  name : String
  isDir : Bool
deriving DecidableEq, Repr

/-- A timeframe-level entry: its name, whether it is a directory, and the
entries `os.listdir` reports inside it. -/
structure TFEntry where
  name : String
  isDir : Bool
  entries : List DirEntry
deriving DecidableEq, Repr

/-- Lexicographic comparison key of a directory name (code points), giving
the order used by Python `sorted` on `os.listdir` output. -/
def strKey (s : String) : List ℕ := s.data.map Char.toNat

/-- `a ≤ b` in Python string order. -/
def strLe (a b : String) : Prop := strKey a ≤ strKey b

instance : DecidableRel strLe := fun a b => inferInstanceAs (Decidable (strKey a ≤ strKey b))

instance : IsTotal String strLe := ⟨fun a b => le_total (strKey a) (strKey b)⟩

instance : IsTrans String strLe := ⟨fun _ _ _ h h' => le_trans h h'⟩

def dirLe (a b : DirEntry) : Prop := strLe a.name b.name

instance : DecidableRel dirLe := fun a b => inferInstanceAs (Decidable (strLe a.name b.name))

instance : IsTotal DirEntry dirLe := ⟨fun a b => total_of strLe a.name b.name⟩

instance : IsTrans DirEntry dirLe := ⟨fun _ _ _ h h' => trans_of strLe h h'⟩

def tfLe (a b : TFEntry) : Prop := strLe a.name b.name

instance : DecidableRel tfLe := fun a b => inferInstanceAs (Decidable (strLe a.name b.name))

instance : IsTotal TFEntry tfLe := ⟨fun a b => total_of strLe a.name b.name⟩

instance : IsTrans TFEntry tfLe := ⟨fun _ _ _ h h' => trans_of strLe h h'⟩

/-- Python truthiness of the `allowed_coins` argument: `None` and the empty
collection are falsy. -/
def allowedTruthy : Option (List String) → Bool
  | none => false
  | some l => !l.isEmpty

/-- `coin not in allowed_coins` (negated): membership test. -/
def allowedContains : Option (List String) → String → Bool
  | none, _ => false
  | some l, s => l.contains s

/-- The two `continue` guards of the inner loop of `discover_datasets`:
a coin entry is appended iff it passes the `allowed_coins` guard
(`if allowed_coins and coin not in allowed_coins: continue`) and is a
directory. -/
def coinKeep (allowed : Option (List String)) (c : DirEntry) : Bool :=
  if allowedTruthy allowed && !allowedContains allowed c.name then false
  else c.isDir

/-- The inner loop of `discover_datasets` over one timeframe directory:
sorted coin names that survive both guards. -/
def discoverCoins (allowed : Option (List String)) (entries : List DirEntry) : List String :=
  ((entries.insertionSort dirLe).filter (coinKeep allowed)).map DirEntry.name

/-- `pt_backtest.discover_datasets`: walk sorted timeframe entries, skip
non-directories, collect surviving coins; a timeframe key exists in the
`defaultdict` result iff at least one coin was appended. -/
def discover_datasets (root : List TFEntry) (allowed : Option (List String)) :
    List (String × List String) :=
  (root.insertionSort tfLe).filterMap fun tf =>
    if tf.isDir then
      let coins := discoverCoins allowed tf.entries
      if coins.isEmpty then none else some (tf.name, coins)
    else none

/-! ## Orchestrator (`main`) -/

/-- How a run of `main` aborts: `os.listdir` raising `FileNotFoundError`
on a nonexistent root, or the `SystemExit("No datasets found in the
provided data directory")`. Either way the process exits non-zero. -/
inductive RunAbort where
  | fileNotFound : RunAbort
  | noDatasets : RunAbort
deriving DecidableEq, Repr

/-- One row of `backtest_report.csv` (numeric values kept unformatted). -/
structure SummaryRow where
  coin : String
  timeframe : String
  metrics : Metrics
deriving DecidableEq, Repr

/-- `pt_backtest.main` up to the summary write, over an abstract filesystem
(`none` models a nonexistent data root) and the external
`pt_trainer.load_history` capability `hist coin timeframe`.  A `.ok rows`
result means `write_summary` ran and `backtest_report.csv` holds exactly
`rows`; an `.error` result aborts before any summary file is produced. -/
def runMain (fs : Option (List TFEntry)) (allowed : Option (List String))
    (hist : String → String → List RawRecord) : Except RunAbort (List SummaryRow) :=
  match fs with
  | none => .error .fileNotFound
  | some root =>
    let datasets := discover_datasets root allowed
    if datasets.isEmpty then .error .noDatasets
    else
      .ok <| datasets.flatMap fun d =>
        d.2.map fun coin =>
          ⟨coin, d.1, _calc_metrics (_parse_history_rows (hist coin d.1))⟩

/-- Process exit code: `SystemExit` with a string message and an uncaught
`FileNotFoundError` both terminate with a non-zero code. -/
def exitCode (r : Except RunAbort (List SummaryRow)) : ℕ :=
  match r with
  | .ok _ => 0
  | .error _ => 1

/-! ## Price replay feed (`BacktestPriceReplay`) -/

/-- Python `str.upper`: uppercase every character. -/
def pyUpper (s : String) : String := String.mk (s.data.map Char.toUpper)

/-- Python `str.strip`: drop leading and trailing whitespace. -/
def pyStrip (s : String) : String :=
  String.mk (((s.data.dropWhile Char.isWhitespace).reverse.dropWhile
    Char.isWhitespace).reverse)

/-- `str(sym).upper().strip()` as done by `next_price` (and `__init__`). -/
def normalizeSym (s : String) : String := pyStrip (pyUpper s)

/-- State of one `_iter_for` generator: the closes list it iterates over
(snapshotted at creation) and how many prices it has already yielded. -/
structure ReplayState where
  closes : List ℚ
  idx : ℕ
deriving DecidableEq, Repr

/-- Dictionary lookup (`sym in d`, `d.get`). -/
def alookup {α : Type} (k : String) : List (String × α) → Option α
  | [] => none
  | (k', v) :: rest => if k = k' then some v else alookup k rest

/-- Dictionary insert-or-update (`d[sym] = v`). -/
def aset {α : Type} (k : String) (v : α) : List (String × α) → List (String × α)
  | [] => [(k, v)]
  | (k', v') :: rest => if k = k' then (k, v) :: rest else (k', v') :: aset k v rest

/-- The `_iters` and `_last_price` dictionaries of a `BacktestPriceReplay`
instance (keys are already-normalized symbols). -/
structure FeedState where
  iters : List (String × ReplayState)
  lastPrice : List (String × ℚ)
deriving DecidableEq, Repr

def FeedState.init : FeedState := ⟨[], []⟩

/-- The closes a fresh `_iter_for sym` generator will iterate over: parse
the loaded history, project the close prices, and substitute `[0.0]` when
empty (`if not closes: closes = [0.0]`). -/
def closesFor (hist : String → List RawRecord) (sym : String) : List ℚ :=
  let closes := (_parse_rows (hist sym)).map Prod.snd
  if closes.isEmpty then [0] else closes

/-- `BacktestPriceReplay.next_price`: normalize the symbol, create the
generator on first use, pull one value (a stored close while the finite
phase lasts, then `self._last_price.get(sym, 0.0)` forever), and record the
value in `_last_price`. -/
def next_price (hist : String → List RawRecord) (sym : String) (st : FeedState) :
    ℚ × FeedState :=
  let k := normalizeSym sym
  let rs :=
    match alookup k st.iters with
    | some rs => rs
    | none => { closes := closesFor hist k, idx := 0 }
  let price :=
    match rs.closes.get? rs.idx with
    | some p => p
    | none => (alookup k st.lastPrice).getD 0
  (price, ⟨aset k { rs with idx := rs.idx + 1 } st.iters, aset k price st.lastPrice⟩)

/-- The feed state after `n` calls of `next_price` for `sym`, starting from
a fresh instance. -/
def stateAfterCalls (hist : String → List RawRecord) (sym : String) : ℕ → FeedState
  | 0 => FeedState.init
  | n + 1 => (next_price hist sym (stateAfterCalls hist sym n)).2

/-- The value returned by the `(n+1)`-st call of `next_price` for `sym`
(0-indexed) on a fresh instance. -/
def priceAt (hist : String → List RawRecord) (sym : String) (n : ℕ) : ℚ :=
  (next_price hist sym (stateAfterCalls hist sym n)).1

/-- Run a sequence of `next_price` calls, one per listed symbol, collecting
the returned prices. -/
def runCalls (hist : String → List RawRecord) : List String → FeedState → List ℚ × FeedState
  | [], st => ([], st)
  | s :: rest, st =>
    let r := next_price hist s st
    let r' := runCalls hist rest r.2
    (r.1 :: r'.1, r'.2)

/-! ## Helper lemmas -/

/-- Timestamp order on parsed 5-field candles. -/
def candleTsLe (a b : Candle) : Prop := a.ts ≤ b.ts

instance : DecidableRel candleTsLe := fun a b => inferInstanceAs (Decidable (a.ts ≤ b.ts))

lemma parse_history_rows_eq_filterMap (rows : List RawRecord) :
    _parse_history_rows rows = rows.filterMap decodeHistory := by
  induction rows with
  | nil => rfl
  | cons r rest ih =>
    simp only [_parse_history_rows, List.filterMap_cons]
    cases decodeHistory r <;> simp [ih]

lemma parseRowsLoop_eq_filterMap (rows : List RawRecord) :
    parseRowsLoop rows = rows.filterMap decodeReplay := by
  induction rows with
  | nil => rfl
  | cons r rest ih =>
    simp only [parseRowsLoop, List.filterMap_cons]
    cases decodeReplay r <;> simp [ih]

lemma calcMetricsLoop_eq (rows : List Candle) :
    calcMetricsLoop rows =
      ((rows.countP fun c => decide (c.op < c.close)),
       (rows.countP fun c => decide (0 < max |c.high - c.op| |c.op - c.low|)),
       rows.map fun c => |c.close - c.op|) := by
  induction rows with
  | nil => rfl
  | cons c rest ih =>
    simp only [calcMetricsLoop, ih, List.countP_cons, List.map_cons]
    by_cases h1 : c.op < c.close <;>
      by_cases h2 : 0 < max |c.high - c.op| |c.op - c.low| <;>
        simp [h1, h2, gt_iff_lt, Prod.ext_iff]

/-- Total indexing with default 0, as a replay stream's value selector. -/
def nthD (l : List ℚ) (i : ℕ) : ℚ := l[i]?.getD 0

lemma getElem?_eq_nthD {l : List ℚ} {i : ℕ} (h : i < l.length) :
    l[i]? = some (nthD l i) := by
  rw [nthD, List.getElem?_eq_getElem h]
  rfl

lemma closesFor_ne_nil (hist : String → List RawRecord) (sym : String) :
    closesFor hist sym ≠ [] := by
  unfold closesFor
  cases h : ((_parse_rows (hist sym)).map Prod.snd).isEmpty with
  | true => simp [h]
  | false =>
    simp only [h, Bool.false_eq_true, if_false]
    intro hn
    rw [hn] at h
    exact absurd h (by simp)

/-- Full characterization of a single-symbol replay run: after `n+1` calls
the feed holds exactly one generator for the normalized symbol, positioned
at index `n+1`, `_last_price` holds the price just returned, and the `n`-th
returned price is the `min n (len-1)`-th close of the (padded) close list. -/
lemma replay_run (hist : String → List RawRecord) (sym : String) (n : ℕ) :
    stateAfterCalls hist sym (n + 1) =
      ⟨[(normalizeSym sym, ⟨closesFor hist (normalizeSym sym), n + 1⟩)],
       [(normalizeSym sym,
          nthD (closesFor hist (normalizeSym sym))
            (min n ((closesFor hist (normalizeSym sym)).length - 1)))]⟩ ∧
    priceAt hist sym n =
      nthD (closesFor hist (normalizeSym sym))
        (min n ((closesFor hist (normalizeSym sym)).length - 1)) := by
  have hpos : 0 < (closesFor hist (normalizeSym sym)).length :=
    List.length_pos.mpr (closesFor_ne_nil hist (normalizeSym sym))
  induction n with
  | zero =>
    have h0 := getElem?_eq_nthD (l := closesFor hist (normalizeSym sym)) (i := 0) hpos
    constructor
    · show (next_price hist sym FeedState.init).2 = _
      simp [next_price, alookup, aset, FeedState.init, h0, Nat.zero_min]
    · show (next_price hist sym FeedState.init).1 = _
      simp [next_price, alookup, FeedState.init, h0, Nat.zero_min]
  | succ m ih =>
    have hstep : next_price hist sym (stateAfterCalls hist sym (m + 1)) =
        (nthD (closesFor hist (normalizeSym sym))
           (min (m + 1) ((closesFor hist (normalizeSym sym)).length - 1)),
         ⟨[(normalizeSym sym, ⟨closesFor hist (normalizeSym sym), m + 2⟩)],
          [(normalizeSym sym,
             nthD (closesFor hist (normalizeSym sym))
               (min (m + 1) ((closesFor hist (normalizeSym sym)).length - 1)))]⟩) := by
      rw [ih.1]
      by_cases hm : m + 1 < (closesFor hist (normalizeSym sym)).length
      · have hg := getElem?_eq_nthD (l := closesFor hist (normalizeSym sym))
          (i := m + 1) hm
        have hmin : min (m + 1) ((closesFor hist (normalizeSym sym)).length - 1)
            = m + 1 := Nat.min_eq_left (by omega)
        simp [next_price, alookup, aset, hg, hmin]
      · have hg : (closesFor hist (normalizeSym sym))[m + 1]? = none :=
          List.getElem?_eq_none (by omega)
        have hmin1 : min (m + 1) ((closesFor hist (normalizeSym sym)).length - 1)
            = (closesFor hist (normalizeSym sym)).length - 1 :=
          Nat.min_eq_right (by omega)
        have hmin2 : min m ((closesFor hist (normalizeSym sym)).length - 1)
            = (closesFor hist (normalizeSym sym)).length - 1 :=
          Nat.min_eq_right (by omega)
        simp [next_price, alookup, aset, hg, hmin1, hmin2]
    constructor
    · show (next_price hist sym (stateAfterCalls hist sym (m + 1))).2 = _
      rw [hstep]
    · show (next_price hist sym (stateAfterCalls hist sym (m + 1))).1 = _
      rw [hstep]

lemma priceAt_eq (hist : String → List RawRecord) (sym : String) (n : ℕ) :
    priceAt hist sym n =
      nthD (closesFor hist (normalizeSym sym))
        (min n ((closesFor hist (normalizeSym sym)).length - 1)) :=
  (replay_run hist sym n).2

/-- A small concrete history used by witnesses: three BTC candles with
closes 10, 20, 30. -/
def histExample : String → List RawRecord := fun s =>
  if s = "BTC" then
    [.record [some 1, some 9, some 10], .record [some 2, some 19, some 20],
     .record [some 3, some 29, some 30]]
  else []

/-! ## Claim theorems -/

/-- C8: the aggregator applied to the empty candle sequence returns exactly
`samples=0, win_rate=0.0, hit_rate=0.0, avg_threshold=0.0`, without raising. -/
theorem calc_metrics_empty : _calc_metrics [] = ⟨0, 0, 0, 0⟩ := rfl

/-- C5: for every non-empty candle sequence, `_calc_metrics` returns
`samples` = length, `win_rate` = (count of `close > open`) / samples,
`hit_rate` = (count of `max(|high-open|,|open-low|) > 0`) / samples, and
`avg_threshold` = mean of `|close - open|`. -/
theorem calc_metrics_correct (rows : List Candle) (hne : rows ≠ []) :
    _calc_metrics rows = ⟨rows.length,
      (rows.countP fun c => decide (c.op < c.close)) / (rows.length : ℚ),
      (rows.countP fun c => decide (0 < max |c.high - c.op| |c.op - c.low|)) /
        (rows.length : ℚ),
      ((rows.map fun c => |c.close - c.op|).sum) / (rows.length : ℚ)⟩ := by
  have hE : rows.isEmpty = false := by
    cases rows with
    | nil => exact absurd rfl hne
    | cons a l => rfl
  have hmapE : (rows.map fun c => |c.close - c.op|).isEmpty = false := by
    cases rows with
    | nil => exact absurd rfl hne
    | cons a l => rfl
  simp only [_calc_metrics, hE, calcMetricsLoop_eq, hmapE, Bool.false_eq_true,
    if_false]

/-- C5 witness: the spec's two-candle example gives `samples=2`,
`win_rate=1/2`, `hit_rate=1`, `avg_threshold=2`. -/
theorem calc_metrics_correct_witness :
    _calc_metrics [⟨1, 10, 12, 13, 9⟩, ⟨2, 10, 8, 11, 7⟩] =
      ⟨2, 1/2, 1, 2⟩ := by
  have h := calc_metrics_correct [⟨1, 10, 12, 13, 9⟩, ⟨2, 10, 8, 11, 7⟩]
    (by decide)
  rw [h]
  simp only [Metrics.mk.injEq, List.countP_cons, List.countP_nil, List.map_cons,
    List.map_nil, List.sum_cons, List.sum_nil, List.length_cons, List.length_nil]
  norm_num

/-- C1 counterexample: two decodable records in descending timestamp order
make the 5-field metrics parser emit a sequence that is not non-decreasing
in timestamp, refuting the claim that both parse operations sort. -/
theorem parse_history_rows_unsorted_cex :
    ¬ List.Sorted candleTsLe (_parse_history_rows
      [.record [some 2, some 0, some 0, some 0, some 0],
       .record [some 1, some 0, some 0, some 0, some 0]]) := by decide

/-- C1 amended: the 2-field replay parser's output is non-decreasing in
timestamp for every input order, but the 5-field metrics parser preserves
the input order of its decodable records and does not sort. -/
theorem parse_sorting_amended (rows : List RawRecord) :
    List.Sorted tsLe (_parse_rows rows) ∧
    _parse_history_rows rows = rows.filterMap decodeHistory :=
  ⟨List.sorted_insertionSort tsLe _, parse_history_rows_eq_filterMap rows⟩

/-- C6: each record is decoded independently and an undecodable record is
silently dropped without aborting the parse; a mix of 3 well-formed and 2
undecodable records parses to exactly the 3 well-formed candles. -/
theorem malformed_rows_dropped (rows : List RawRecord) :
    _parse_history_rows rows = rows.filterMap decodeHistory ∧
    (∀ r, decodeHistory r = none →
      _parse_history_rows (r :: rows) = _parse_history_rows rows) ∧
    (∀ r, decodeReplay r = none → _parse_rows (r :: rows) = _parse_rows rows) ∧
    _parse_history_rows
        [.record [some 1, some 10, some 12, some 13, some 9], .invalid,
         .record [some 2, some 10, some 8, some 11, some 7],
         .record [some 4, some 1, none, some 2, some 3],
         .record [some 3, some 5, some 6, some 7, some 4]] =
      [⟨1, 10, 12, 13, 9⟩, ⟨2, 10, 8, 11, 7⟩, ⟨3, 5, 6, 7, 4⟩] ∧
    _parse_rows
        [.record [some 1, some 10, some 12, some 13, some 9], .invalid,
         .record [some 2, some 10, some 8, some 11, some 7],
         .record [some 4, some 1, none, some 2, some 3],
         .record [some 3, some 5, some 6, some 7, some 4]] =
      [(1, 12), (2, 8), (3, 6)] := by
  refine ⟨parse_history_rows_eq_filterMap rows, ?_, ?_, by decide, by decide⟩
  · intro r hr
    simp [_parse_history_rows, hr]
  · intro r hr
    simp [_parse_rows, parseRowsLoop, hr]

/-- C6 witness: a structurally invalid record prepended to a well-formed one
is dropped and the parse result is unchanged. -/
theorem malformed_rows_dropped_witness :
    _parse_history_rows
        [.invalid, .record [some 1, some 10, some 12, some 13, some 9]] =
      _parse_history_rows [.record [some 1, some 10, some 12, some 13, some 9]] :=
  (malformed_rows_dropped
    [.record [some 1, some 10, some 12, some 13, some 9]]).2.1 .invalid rfl

/-- C10: both parsers read fields positionally from the decoded record with
layout `[timestamp, open, close, high, low, ...]`; the replay parser reads
the close from index 2 and drops any record with fewer than 3 fields —
including one holding exactly a `(timestamp, close)` pair — and the metrics
parser drops any record with fewer than 5 fields. -/
theorem positional_field_decoding (vals : List (Option ℚ)) (ts o c hi lo : ℚ)
    (rest : List (Option ℚ)) :
    (vals.length < 3 →
      decodeReplay (.record vals) = none ∧ _parse_rows [.record vals] = []) ∧
    (vals.length < 5 →
      decodeHistory (.record vals) = none ∧
        _parse_history_rows [.record vals] = []) ∧
    decodeReplay (.record (some ts :: some o :: some c :: rest)) = some (ts, c) ∧
    decodeHistory (.record (some ts :: some o :: some c :: some hi :: some lo ::
      rest)) = some ⟨ts, o, c, hi, lo⟩ ∧
    decodeReplay (.record [some ts, some c]) = none := by
  refine ⟨?_, ?_, rfl, rfl, rfl⟩
  · intro hlen
    have h2 : fieldAt vals 2 = none := by
      unfold fieldAt
      rw [List.get?_eq_none.mpr (by omega)]
    have hd : decodeReplay (.record vals) = none := by
      cases hf : fieldAt vals 0 <;> simp [decodeReplay, hf, h2]
    exact ⟨hd, by simp [_parse_rows, parseRowsLoop, hd, List.insertionSort]⟩
  · intro hlen
    have h4 : fieldAt vals 4 = none := by
      unfold fieldAt
      rw [List.get?_eq_none.mpr (by omega)]
    have hd : decodeHistory (.record vals) = none := by
      cases hf : fieldAt vals 0 <;> cases hf1 : fieldAt vals 1 <;>
        cases hf2 : fieldAt vals 2 <;> cases hf3 : fieldAt vals 3 <;>
          simp [decodeHistory, hf, hf1, hf2, hf3, h4]
    exact ⟨hd, by simp [_parse_history_rows, hd]⟩

/-- C10 witness: a record that decodes to exactly the pair
`(timestamp, close)` is dropped by the replay parser. -/
theorem positional_field_decoding_witness :
    decodeReplay (.record [some 5, some 7]) = none ∧
    _parse_rows [.record [some 5, some 7]] = [] :=
  (positional_field_decoding [some 5, some 7] 0 0 0 0 0 []).1 (by decide)

/-- C2: for a symbol whose history parses to a non-empty close sequence,
`next_price` returns the closes oldest to newest and then repeats the last
close forever; in particular for closes `[p1, p2, p3]` the first four calls
return `p1, p2, p3, p3` and every later call returns `p3`. -/
theorem next_price_exhaustion (hist : String → List RawRecord) (sym : String)
    (cs : List ℚ)
    (hcs : (_parse_rows (hist (normalizeSym sym))).map Prod.snd = cs)
    (hne : cs ≠ []) :
    (∀ n, priceAt hist sym n = nthD cs (min n (cs.length - 1))) ∧
    (∀ p1 p2 p3, cs = [p1, p2, p3] →
      priceAt hist sym 0 = p1 ∧ priceAt hist sym 1 = p2 ∧
      priceAt hist sym 2 = p3 ∧ priceAt hist sym 3 = p3 ∧
      ∀ n, 3 ≤ n → priceAt hist sym n = p3) := by
  have hclo : closesFor hist (normalizeSym sym) = cs := by
    unfold closesFor
    rw [hcs]
    have hE : cs.isEmpty = false := by
      cases cs with
      | nil => exact absurd rfl hne
      | cons a l => rfl
    simp [hE]
  have hgen : ∀ n, priceAt hist sym n = nthD cs (min n (cs.length - 1)) := by
    intro n
    rw [priceAt_eq, hclo]
  refine ⟨hgen, ?_⟩
  rintro p1 p2 p3 rfl
  refine ⟨hgen 0, hgen 1, hgen 2, hgen 3, ?_⟩
  intro n hn
  rw [hgen n]
  have hmin : min n (([p1, p2, p3] : List ℚ).length - 1) = 2 :=
    Nat.min_eq_right (by simp; omega)
  rw [hmin]
  rfl

/-- C2 witness: a concrete three-candle BTC history replays
`10, 20, 30, 30` and still returns `30` at the tenth call. -/
theorem next_price_exhaustion_witness :
    priceAt histExample "BTC" 0 = 10 ∧ priceAt histExample "BTC" 1 = 20 ∧
    priceAt histExample "BTC" 2 = 30 ∧ priceAt histExample "BTC" 3 = 30 ∧
    priceAt histExample "BTC" 9 = 30 := by
  have h := next_price_exhaustion histExample "BTC" [10, 20, 30] (by decide)
    (by decide)
  obtain ⟨e0, e1, e2, e3, hrest⟩ := h.2 10 20 30 rfl
  exact ⟨e0, e1, e2, e3, hrest 9 (by omega)⟩

/-- C7: for a symbol whose history parses to zero prices, every call of
`next_price` returns `0.0` (the call is total, never raising), and
`_last_price` for that symbol becomes `0.0`. -/
theorem next_price_empty_history (hist : String → List RawRecord) (sym : String)
    (h : (_parse_rows (hist (normalizeSym sym))).map Prod.snd = []) :
    (∀ n, priceAt hist sym n = 0) ∧
    (∀ n, alookup (normalizeSym sym)
      (stateAfterCalls hist sym (n + 1)).lastPrice = some 0) := by
  have hclo : closesFor hist (normalizeSym sym) = [0] := by
    unfold closesFor
    rw [h]
    rfl
  have hval : ∀ n, nthD (closesFor hist (normalizeSym sym))
      (min n ((closesFor hist (normalizeSym sym)).length - 1)) = 0 := by
    intro n
    rw [hclo]
    have : min n ((([0] : List ℚ)).length - 1) = 0 := by simp
    rw [this]
    rfl
  constructor
  · intro n
    rw [priceAt_eq, hval]
  · intro n
    rw [(replay_run hist sym n).1, hval]
    simp [alookup]

/-- C7 witness: with a loader returning no rows, the first call returns
`0.0` and `_last_price` holds `0.0`. -/
theorem next_price_empty_history_witness :
    priceAt (fun _ => []) "ETH" 0 = 0 ∧
    alookup (normalizeSym "ETH")
      (stateAfterCalls (fun _ => []) "ETH" 1).lastPrice = some 0 := by
  have h := next_price_empty_history (fun _ => []) "ETH" (by decide)
  exact ⟨h.1 0, h.2 0⟩

/-- C9: two symbol spellings equal after upper-casing and trimming resolve
to and advance the same ReplayState: `next_price` behaves identically on
either spelling from any state, so interleaved calls with the two spellings
produce one combined chronological sequence. -/
theorem next_price_symbol_normalization (hist : String → List RawRecord)
    (s1 s2 : String) (h : normalizeSym s1 = normalizeSym s2) :
    (∀ st, next_price hist s1 st = next_price hist s2 st) ∧
    (∀ picks : List Bool, ∀ st,
      runCalls hist (picks.map fun b => if b then s1 else s2) st =
        runCalls hist (picks.map fun _ => s1) st) := by
  have hstep : ∀ st, next_price hist s1 st = next_price hist s2 st := by
    intro st
    simp only [next_price, h]
  refine ⟨hstep, ?_⟩
  intro picks
  induction picks with
  | nil => intro st; rfl
  | cons b rest ih =>
    intro st
    cases b with
    | false =>
      simp only [List.map_cons, Bool.false_eq_true, if_false, runCalls,
        ← hstep st, ih]
    | true =>
      simp only [List.map_cons, if_true, runCalls, ih]

/-- C9 witness: the spellings `" btc "` and `"BTC"` act identically on a
fresh feed. -/
theorem next_price_symbol_normalization_witness :
    next_price histExample " btc " FeedState.init =
      next_price histExample "BTC" FeedState.init :=
  (next_price_symbol_normalization histExample " btc " "BTC" (by decide)).1
    FeedState.init

/-! ## Catalog lemmas -/

lemma discoverFn_eq {allowed : Option (List String)} {tf : TFEntry}
    {p : String × List String}
    (h : (if tf.isDir then
        let coins := discoverCoins allowed tf.entries
        if coins.isEmpty then none else some (tf.name, coins)
      else none) = some p) :
    tf.isDir = true ∧ p = (tf.name, discoverCoins allowed tf.entries) ∧
      (discoverCoins allowed tf.entries).isEmpty = false := by
  obtain ⟨p1, p2⟩ := p
  cases hd : tf.isDir with
  | false => simp [hd] at h
  | true =>
    cases he : (discoverCoins allowed tf.entries).isEmpty with
    | true => simp [hd, he] at h
    | false =>
      simp only [hd, if_true, he, Bool.false_eq_true, if_false,
        Option.some.injEq, Prod.mk.injEq] at h
      exact ⟨rfl, by simp [h.1, h.2], rfl⟩

lemma mem_discover {root : List TFEntry} {allowed : Option (List String)}
    {p : String × List String} (hp : p ∈ discover_datasets root allowed) :
    ∃ tf, tf ∈ root ∧ tf.isDir = true ∧
      p = (tf.name, discoverCoins allowed tf.entries) ∧
      (discoverCoins allowed tf.entries).isEmpty = false := by
  unfold discover_datasets at hp
  rw [List.mem_filterMap] at hp
  obtain ⟨tf, htf, hfn⟩ := hp
  rw [List.mem_insertionSort] at htf
  obtain ⟨hd, hpe, hne⟩ := discoverFn_eq hfn
  exact ⟨tf, htf, hd, hpe, hne⟩

lemma discover_mem_of {root : List TFEntry} {allowed : Option (List String)}
    {tf : TFEntry} (htf : tf ∈ root) (hd : tf.isDir = true)
    (hne : (discoverCoins allowed tf.entries).isEmpty = false) :
    (tf.name, discoverCoins allowed tf.entries) ∈ discover_datasets root allowed := by
  unfold discover_datasets
  rw [List.mem_filterMap]
  refine ⟨tf, ?_, ?_⟩
  · rw [List.mem_insertionSort]
    exact htf
  · simp [hd, hne]

lemma mem_discoverCoins {allowed : Option (List String)} {entries : List DirEntry}
    {c : String} (hc : c ∈ discoverCoins allowed entries) :
    ∃ e, e ∈ entries ∧ coinKeep allowed e = true ∧ e.name = c := by
  unfold discoverCoins at hc
  rw [List.mem_map] at hc
  obtain ⟨e, he, rfl⟩ := hc
  rw [List.mem_filter, List.mem_insertionSort] at he
  exact ⟨e, he.1, he.2, rfl⟩

lemma mem_discoverCoins_of {allowed : Option (List String)}
    {entries : List DirEntry} {e : DirEntry} (he : e ∈ entries)
    (hk : coinKeep allowed e = true) : e.name ∈ discoverCoins allowed entries := by
  unfold discoverCoins
  refine List.mem_map.mpr ⟨e, ?_, rfl⟩
  rw [List.mem_filter, List.mem_insertionSort]
  exact ⟨he, hk⟩

lemma coinKeep_of_mem_allowed {allowed : List String} {e : DirEntry}
    (hmem : e.name ∈ allowed) (hd : e.isDir = true) :
    coinKeep (some allowed) e = true := by
  have hc : allowed.contains e.name = true := by simpa using hmem
  simp only [coinKeep, allowedTruthy, allowedContains, hc, hd]
  simp

lemma mem_allowed_of_coinKeep {allowed : List String} (hne : allowed ≠ [])
    {e : DirEntry} (h : coinKeep (some allowed) e = true) :
    e.name ∈ allowed ∧ e.isDir = true := by
  have hE : allowed.isEmpty = false := by
    cases allowed with
    | nil => exact absurd rfl hne
    | cons a l => rfl
  cases hcc : allowed.contains e.name with
  | false =>
    simp [coinKeep, allowedTruthy, allowedContains, hE, hcc] at h
    exact h
  | true =>
    simp only [coinKeep, allowedTruthy, allowedContains, hE, hcc,
      Bool.not_true, Bool.and_false, Bool.false_eq_true, if_false] at h
    exact ⟨by simpa using hcc, h⟩

lemma pairwise_fst_filterMap_tf (allowed : Option (List String))
    (l : List TFEntry) (hs : List.Pairwise tfLe l) :
    List.Pairwise strLe ((l.filterMap fun tf =>
      if tf.isDir then
        let coins := discoverCoins allowed tf.entries
        if coins.isEmpty then none else some (tf.name, coins)
      else none).map Prod.fst) := by
  induction l with
  | nil => simp
  | cons t rest ih =>
    rw [List.filterMap_cons]
    rcases hp : (if t.isDir then
        let coins := discoverCoins allowed t.entries
        if coins.isEmpty then none else some (t.name, coins)
      else none) with _ | p
    · exact ih hs.of_cons
    · rw [List.map_cons]
      refine List.Pairwise.cons ?_ (ih hs.of_cons)
      intro q hq
      rw [List.mem_map] at hq
      obtain ⟨pr, hpr, rfl⟩ := hq
      rw [List.mem_filterMap] at hpr
      obtain ⟨t2, ht2, hft2⟩ := hpr
      have hname : p.1 = t.name := by rw [(discoverFn_eq hp).2.1]
      have hname2 : pr.1 = t2.name := by rw [(discoverFn_eq hft2).2.1]
      rw [hname, hname2]
      exact (List.pairwise_cons.mp hs).1 t2 ht2

lemma pairwise_fst_discover (root : List TFEntry) (allowed : Option (List String)) :
    List.Pairwise strLe ((discover_datasets root allowed).map Prod.fst) := by
  unfold discover_datasets
  exact pairwise_fst_filterMap_tf allowed (root.insertionSort tfLe)
    (List.sorted_insertionSort tfLe root)

lemma pairwise_discoverCoins (allowed : Option (List String))
    (entries : List DirEntry) :
    List.Pairwise strLe (discoverCoins allowed entries) := by
  unfold discoverCoins
  exact ((List.sorted_insertionSort dirLe entries).filter
    (coinKeep allowed)).map DirEntry.name (fun _ _ hab => hab)

/-- C3 counterexample: with the empty coin set provided, Python truthiness
disables the filter, so a coin directory survives even though it is not a
member of the (empty) allowed set — refuting "with an empty provided set no
coin survives". -/
theorem discover_empty_allowed_cex :
    discover_datasets [⟨"1hour", true, [⟨"BTC", true⟩]⟩] (some []) =
      [("1hour", ["BTC"])] ∧ "BTC" ∉ ([] : List String) :=
  ⟨by decide, by decide⟩

/-- C3 amended: when `allowed_coins` is provided and non-empty, a coin
directory appears in the result iff its name is a member; when provided but
empty the filter is inert (the result equals the unfiltered one, so every
coin directory survives); timeframes with zero surviving coins are absent;
timeframe keys and coin lists are ordered lexicographically. -/
theorem discover_datasets_filtering (root : List TFEntry)
    (allowed : List String) (hne : allowed ≠ []) :
    (∀ p ∈ discover_datasets root (some allowed), ∀ c ∈ p.2, c ∈ allowed) ∧
    (∀ tf ∈ root, tf.isDir = true → ∀ e ∈ tf.entries, e.isDir = true →
      e.name ∈ allowed →
      ∃ p ∈ discover_datasets root (some allowed),
        p.1 = tf.name ∧ e.name ∈ p.2) ∧
    (∀ a : Option (List String), ∀ p ∈ discover_datasets root a, p.2 ≠ []) ∧
    (∀ a : Option (List String),
      List.Pairwise strLe ((discover_datasets root a).map Prod.fst) ∧
      ∀ p ∈ discover_datasets root a, List.Pairwise strLe p.2) ∧
    discover_datasets root (some []) = discover_datasets root none := by
  refine ⟨?_, ?_, ?_, ?_, ?_⟩
  · intro p hp c hc
    obtain ⟨tf, _, _, hpe, _⟩ := mem_discover hp
    rw [hpe] at hc
    obtain ⟨e, _, hk, hname⟩ := mem_discoverCoins hc
    rw [← hname]
    exact (mem_allowed_of_coinKeep hne hk).1
  · intro tf htf hd e he hed hmem
    have hk := coinKeep_of_mem_allowed hmem hed
    have hcm := mem_discoverCoins_of he hk
    have hcoins : (discoverCoins (some allowed) tf.entries).isEmpty = false := by
      cases hE : discoverCoins (some allowed) tf.entries with
      | nil => rw [hE] at hcm; cases hcm
      | cons a l => rfl
    exact ⟨(tf.name, discoverCoins (some allowed) tf.entries),
      discover_mem_of htf hd hcoins, rfl, hcm⟩
  · intro a p hp
    obtain ⟨tf, _, _, hpe, hne2⟩ := mem_discover hp
    rw [hpe]
    cases hE : discoverCoins a tf.entries with
    | nil => rw [hE] at hne2; simp at hne2
    | cons x l => simp [hE]
  · intro a
    refine ⟨pairwise_fst_discover root a, ?_⟩
    intro p hp
    obtain ⟨tf, _, _, hpe, _⟩ := mem_discover hp
    rw [hpe]
    exact pairwise_discoverCoins a tf.entries
  · unfold discover_datasets discoverCoins
    have hck : coinKeep (some []) = coinKeep none := funext fun _ => rfl
    rw [hck]

/-- C3 witness: on a root holding coin directory `BTC`, with allowed set
`{BTC, SOL}`, the surviving coin `BTC` is a member; and the empty allowed
set yields the same catalog as no filter. -/
theorem discover_datasets_filtering_witness :
    ("BTC" ∈ ["BTC", "SOL"]) ∧
    discover_datasets [⟨"1hour", true, [⟨"BTC", true⟩]⟩] (some []) =
      discover_datasets [⟨"1hour", true, [⟨"BTC", true⟩]⟩] none := by
  have h := discover_datasets_filtering [⟨"1hour", true, [⟨"BTC", true⟩]⟩]
    ["BTC", "SOL"] (by decide)
  exact ⟨h.1 ("1hour", ["BTC"]) (by decide) "BTC" (by decide), h.2.2.2.2⟩

/-- C4 counterexample: a nonexistent data root makes `os.listdir` raise an
uncaught `FileNotFoundError`, so the run aborts with that error and not
with the `NoDatasetsFound` condition (`SystemExit("No datasets found...")`)
— refuting the claim for the nonexistent-root case. -/
theorem run_main_nonexistent_root_cex :
    runMain none none (fun _ _ => []) = .error .fileNotFound ∧
    RunAbort.fileNotFound ≠ RunAbort.noDatasets := ⟨rfl, by decide⟩

/-- C4 amended: a root that exists but discovers no datasets aborts with
`NoDatasetsFound`, exits non-zero and produces no summary; a nonexistent
root also exits non-zero without a summary, but via an uncaught
`FileNotFoundError` rather than `NoDatasetsFound`. -/
theorem run_main_fatal (allowed : Option (List String))
    (hist : String → String → List RawRecord) (root : List TFEntry)
    (hempty : discover_datasets root allowed = []) :
    (runMain (some root) allowed hist = .error .noDatasets ∧
     exitCode (runMain (some root) allowed hist) = 1 ∧
     ∀ rows, runMain (some root) allowed hist ≠ .ok rows) ∧
    (runMain none allowed hist = .error .fileNotFound ∧
     exitCode (runMain none allowed hist) = 1 ∧
     ∀ rows, runMain none allowed hist ≠ .ok rows) := by
  have h1 : runMain (some root) allowed hist = .error .noDatasets := by
    unfold runMain
    simp [hempty]
  refine ⟨⟨h1, by rw [h1]; rfl, ?_⟩, rfl, rfl, fun rows h => by cases h⟩
  intro rows h
  rw [h1] at h
  cases h

/-- C4 witness: an empty root directory aborts with `NoDatasetsFound` and a
nonexistent one with the filesystem error. -/
theorem run_main_fatal_witness :
    runMain (some []) none (fun _ _ => []) = .error .noDatasets ∧
    runMain none none (fun _ _ => []) = .error .fileNotFound := by
  have h := run_main_fatal none (fun _ _ => []) [] (by decide)
  exact ⟨h.1.1, h.2.1⟩

end PowerTrader
